/-
  Verification of the KDiff3 alignment / word-wrap / coordinate-mapping core
  (files: src/LineRef.h, src/merger.h, src/difftextwindow.cpp).

  Shallow embedding conventions:
  * `qint32` values are modelled as `Int`; the `SafeInt<qint32>` wrapper only
    differs from plain `Int` arithmetic at 32-bit overflow, which none of the
    verified operations reach on the inputs considered (increments of the
    sentinel -1, range-checked constructions).
  * container indices that the source keeps in signed types but only ever uses
    with non-negative values are modelled as `Nat`; out-of-range vector reads
    (undefined behaviour in C++) are modelled with `List.getD` and are always
    guarded by the hypotheses of the theorems that touch them.
  * code that lives in headers not present in the excerpt (merger.cpp,
    diff.h) is modelled from the specification; each such definition carries a
    doc comment starting with `Modelled from the spec:`.
-/
import Mathlib

namespace KDiff3

/-! ## LineRef (src/LineRef.h)

`LineRef` stores a `SafeInt<qint32> mLineNumber = invalid` with
`invalid = -1`.  We model the stored number as `Int`. -/

/-- `LineRef::invalid = -1` (LineRef.h line 24). -/
def LineRef.invalidVal : Int := -1

/-- `limits<LineType>::max()` for `LineType = qint32`. -/
def lineTypeMax : Int := 2 ^ 31 - 1

structure LineRef where
  mLineNumber : Int := LineRef.invalidVal
  deriving Repr, DecidableEq

instance : Inhabited LineRef := ⟨{}⟩

/-- `bool LineRef::isValid() const { return mLineNumber != invalid; }` -/
def LineRef.isValid (l : LineRef) : Bool := l.mLineNumber != LineRef.invalidVal

/-- `void LineRef::invalidate() { mLineNumber = invalid; }` -/
def LineRef.invalidate (_ : LineRef) : LineRef := ⟨LineRef.invalidVal⟩

/-- `LineRef::LineRef(const quint64 i)`: if `i <= limits<LineType>::max()`
the value is stored, otherwise the sentinel.  The argument ranges over
`quint64`, i.e. naturals below `2^64`. -/
def LineRef.fromUInt64 (i : Nat) : LineRef :=
  if (i : Int) ≤ lineTypeMax then ⟨(i : Int)⟩ else ⟨LineRef.invalidVal⟩

/-- `LineRef::LineRef(const qint64 i)`: if `i <= limits<LineType>::max() && i >= 0`
the value is stored, otherwise the sentinel. -/
def LineRef.fromInt64 (i : Int) : LineRef :=
  if i ≤ lineTypeMax ∧ 0 ≤ i then ⟨i⟩ else ⟨LineRef.invalidVal⟩

/-- `LineRef& operator++()` — pre-increment: `++mLineNumber; return *this;`. -/
def LineRef.preInc (l : LineRef) : LineRef := ⟨l.mLineNumber + 1⟩

/-- `const LineRef operator++(int)` — post-increment: returns the copy made
before `++mLineNumber`, paired here with the mutated object. -/
def LineRef.postInc (l : LineRef) : LineRef × LineRef := (⟨l.mLineNumber⟩, ⟨l.mLineNumber + 1⟩)

/-- `LineRef& operator--()` — pre-decrement: `--mLineNumber; return *this;`. -/
def LineRef.preDec (l : LineRef) : LineRef := ⟨l.mLineNumber - 1⟩

/-- `const LineRef operator--(int)` — post-decrement. -/
def LineRef.postDec (l : LineRef) : LineRef × LineRef := (⟨l.mLineNumber⟩, ⟨l.mLineNumber - 1⟩)

/-- The default-constructed / invalidated `LineRef`. -/
def LineRef.invalidRef : LineRef := ⟨LineRef.invalidVal⟩

end KDiff3

namespace KDiff3

/-! ## Merger (src/merger.h; merger.cpp is not part of the excerpt)

`merger.h` declares `Merger` with `next()`, `whatChanged()` (bitmask: bit 1
for a difference per `pDiffList1`, bit 2 per `pDiffList2`) and
`isEndReached()`, over two `DiffList` pointers, but its implementation file
is missing, so the cursor behaviour is modelled from the specification
(spec §4.2). -/

/-- A `DiffRun` is a contiguous span of either equal or changed characters. -/
inductive RunKind where
  | equal : RunKind
  | changed : RunKind
  deriving Repr, DecidableEq

structure DiffRun where
  kind : RunKind
  len : Nat
  deriving Repr, DecidableEq

/-- Modelled from the spec: `Merger::MergeData` (implementation in the
missing merger.cpp).  A cursor is either the null stream ("infinite equal
run") or the list of runs not yet fully consumed, the head run's `len`
counting its remaining characters. -/
inductive MergeData where
  | nullStream : MergeData
  | cursor (runs : List DiffRun) : MergeData
  deriving Repr, DecidableEq

/-- Modelled from the spec: a cursor is "equal" if its current run is an
equal-run, or it has no remaining runs (always-equal beyond the end); a
null stream never sets its bit. -/
def MergeData.eq : MergeData → Bool
  | .nullStream => true
  | .cursor [] => true
  | .cursor (r :: _) => r.kind == RunKind.equal

/-- Modelled from the spec: a cursor is exhausted when no runs remain; a
null stream never exhausts. -/
def MergeData.isEnd : MergeData → Bool
  | .nullStream => false
  | .cursor runs => runs.isEmpty

/-- Modelled from the spec: advancing a cursor by one character decrements
the remaining length of the current run and moves to the next run when the
run is exhausted; a null stream is unaffected. -/
def MergeData.advance : MergeData → MergeData
  | .nullStream => .nullStream
  | .cursor [] => .cursor []
  | .cursor (r :: rest) =>
      if r.len ≤ 1 then .cursor rest else .cursor (⟨r.kind, r.len - 1⟩ :: rest)

/-- Characters not yet consumed by a (non-null) cursor. -/
def MergeData.remaining : MergeData → Nat
  | .nullStream => 0
  | .cursor runs => (runs.map DiffRun.len).sum

structure Merger where
  md1 : MergeData
  md2 : MergeData
  deriving Repr, DecidableEq

/-- `void Merger::next()`: go one step — advance both cursors by one
character (modelled from the spec). -/
def Merger.next (m : Merger) : Merger := ⟨m.md1.advance, m.md2.advance⟩

/-- `ChangeFlags Merger::whatChanged()`: per merger.h, the result is 0 if
nothing changed, bit 1 is set for a difference from `pDiffList1`, bit 2 for
a difference from `pDiffList2` (cursor test modelled from the spec). -/
def Merger.whatChanged (m : Merger) : Nat :=
  (if m.md1.eq then 0 else 1) + (if m.md2.eq then 0 else 2)

/-- `bool Merger::isEndReached()`: end of both diff lists reached. -/
def Merger.isEndReached (m : Merger) : Bool := m.md1.isEnd && m.md2.isEnd

/-- `n` applications of `Merger::next()`. -/
def Merger.stepN (m : Merger) : Nat → Merger
  | 0 => m
  | n + 1 => (m.next).stepN n

/-- Total declared length of a stream: the sum of its run lengths. -/
def streamLen (l : List DiffRun) : Nat := (l.map DiffRun.len).sum

/-- A well-formed `DiffOpStream` for a line of length `L`: every run is
non-empty and the run lengths sum to `L` (spec §7a: runs summing to less
than the line length are the malformed case). -/
def wellFormedStream (l : List DiffRun) (L : Nat) : Prop :=
  (∀ r ∈ l, 0 < r.len) ∧ streamLen l = L

/-! The per-character scan of `DiffTextWindowData::writeLine`
(difftextwindow.cpp lines 1056–1066):

    QVector<ChangeFlags> charChanged(pld->size());
    Merger merger(pLineDiff1, pLineDiff2);
    while(!merger.isEndReached() && i < pld->size())
    {
        if(i < pld->size()) { charChanged[i] = merger.whatChanged(); ++i; }
        merger.next();
    }

The vector is value-initialised, so positions never reached stay 0. -/

/-- The classifications recorded by the `writeLine` scan loop, in order.
The first argument counts the iterations still allowed by `i < size`,
i.e. `size - i`; the loop tests `isEndReached` first, then records
`whatChanged` and advances. -/
def writeLineScan : Nat → Merger → List Nat
  | 0, _ => []
  | fuel + 1, m =>
      if m.isEndReached then [] else m.whatChanged :: writeLineScan fuel m.next

/-- The full `charChanged` vector of `writeLine`: the scanned prefix
followed by the value-initialised zeros. -/
def writeLineCharChanged (md1 md2 : MergeData) (size : Nat) : List Nat :=
  let scanned := writeLineScan size ⟨md1, md2⟩
  scanned ++ List.replicate (size - scanned.length) 0

/-- `n` advances of a single cursor. -/
def MergeData.advanceN (md : MergeData) : Nat → MergeData
  | 0 => md
  | n + 1 => md.advance.advanceN n

/-! ## Aligned rows and the word-wrap engine (difftextwindow.cpp)

`Diff3Line` itself lives in diff.h, which is not part of the excerpt; the
fields and trivial accessors used by difftextwindow.cpp are modelled from
the specification.  Everything else below is translated directly from
`DiffTextWindow::recalcWordWrapHelper` and its callers. -/

/-- `e_SrcSelector`: which of the (up to) three files a window shows. -/
inductive SrcSelector where
  | A : SrcSelector
  | B : SrcSelector
  | C : SrcSelector
  deriving Repr, DecidableEq

/-- Modelled from the spec: `Diff3Line` (missing diff.h) — one aligned row
holding up to three per-file line indices (invalid when the file has no
corresponding line) and the mutable cache `linesNeededForDisplay`, which
starts at 1 (spec §3, §4.3). -/
structure Diff3Line where
  lineA : LineRef := LineRef.invalidRef
  lineB : LineRef := LineRef.invalidRef
  lineC : LineRef := LineRef.invalidRef
  m_linesNeededForDisplay : Nat := 1
  deriving Repr, DecidableEq

instance : Inhabited Diff3Line := ⟨{}⟩

/-- Modelled from the spec: trivial accessor `Diff3Line::linesNeededForDisplay()`. -/
def Diff3Line.linesNeededForDisplay (d : Diff3Line) : Nat := d.m_linesNeededForDisplay

/-- Modelled from the spec: trivial mutator `Diff3Line::setLinesNeeded(lines)`. -/
def Diff3Line.setLinesNeeded (d : Diff3Line) (lines : Nat) : Diff3Line :=
  { d with m_linesNeededForDisplay := lines }

/-- Modelled from the spec: `Diff3Line::getLineIndex(winIdx)` — the per-file
line index of this row (spec §4.5: direct field lookup). -/
def Diff3Line.getLineIndex (d : Diff3Line) : SrcSelector → LineRef
  | .A => d.lineA
  | .B => d.lineB
  | .C => d.lineC

/-- Modelled from the spec: `Diff3Line::sumLinesNeededForDisplay()` — the
visual line where this row's first wrapped segment begins, i.e. the sum of
`linesNeededForDisplay` over the preceding rows (spec §4.5). -/
def sumLinesNeededForDisplay (rows : List Diff3Line) (r : Nat) : Nat :=
  ((rows.take r).map Diff3Line.linesNeededForDisplay).sum

/-- `WrapLineCacheData` (difftextwindow.cpp 92–106): one measured visual
line: its row index and the text span's start and length. -/
structure WrapLineCacheData where
  m_d3LineIdx : Nat := 0
  m_textStart : Nat := 0
  m_textLength : Nat := 0
  deriving Repr, DecidableEq

/-- The `linesNeededForDisplay` update of `recalcWordWrapHelper`
(difftextwindow.cpp 1771–1776):

    if(d3l.linesNeededForDisplay() < linesNeeded)
        d3l.setLinesNeeded(linesNeeded);
-/
def measureRowUpdate (d3l : Diff3Line) (linesNeeded : Nat) : Diff3Line :=
  if d3l.linesNeededForDisplay < linesNeeded then d3l.setLinesNeeded linesNeeded else d3l

/-- Result of one measuring-mode chunk of `recalcWordWrapHelper`
(`wrapLineVectorSize == 0`): the updated row table, the chunk's
`WrapLineCacheData` in row-scan order, and whether the chunk ran to
completion (`false` when the per-row `wasCancelled()` poll made it return
early). -/
structure MeasureState where
  rows : List Diff3Line
  wrapLineCache : List WrapLineCacheData
  complete : Bool
  deriving Repr, DecidableEq

/-- Measuring mode of `recalcWordWrapHelper` (difftextwindow.cpp
1716–1776, `wrapLineVectorSize == 0` branch) over the chunk's row indices:
for each row `i` it first polls the cancellation flag and returns early at
the row boundary; otherwise the external text-measurement function
(`QTextLayout`, abstracted as `layout i` = the measured (textStart,
textLength) spans at the pass's width) yields `linesNeeded` visual lines,
the spans are appended to the chunk cache, and the row's cached
`linesNeededForDisplay` is raised when smaller than `linesNeeded`. -/
def measuringPass (layout : Nat → List (Nat × Nat)) (cancel : Nat → Bool)
    (rows : List Diff3Line) : List Nat → MeasureState
  | [] => ⟨rows, [], true⟩
  | i :: rest =>
      if cancel i then ⟨rows, [], false⟩
      else
        let segs := layout i
        let linesNeeded := segs.length
        let rows' := rows.set i (measureRowUpdate (rows.getD i default) linesNeeded)
        let st := measuringPass layout cancel rows' rest
        ⟨st.rows, segs.map (fun s => ⟨i, s.1, s.2⟩) ++ st.wrapLineCache, st.complete⟩

/-- The chunk of row indices handled by runnable `cacheListIdx`
(difftextwindow.cpp 1710–1711): `[cacheListIdx*linesPerRunnable,
min(cacheListIdx*linesPerRunnable + linesPerRunnable, size))`. -/
def chunkIndices (linesPerRunnable size cacheListIdx : Nat) : List Nat :=
  List.range' (cacheListIdx * linesPerRunnable)
    (min (cacheListIdx * linesPerRunnable + linesPerRunnable) size -
      cacheListIdx * linesPerRunnable)

/-! ## Merger lemmas and theorems for claims C1 and C9 -/

theorem Merger.stepN_mk (a b : MergeData) (n : Nat) :
    (Merger.mk a b).stepN n = ⟨a.advanceN n, b.advanceN n⟩ := by
  induction n generalizing a b with
  | zero => rfl
  | succ n ih => simpa [Merger.stepN, Merger.next, MergeData.advanceN] using ih a.advance b.advance

theorem MergeData.advanceN_nullStream (n : Nat) :
    MergeData.nullStream.advanceN n = .nullStream := by
  induction n with
  | zero => rfl
  | succ n ih => simpa [MergeData.advanceN, MergeData.advance] using ih

/-- Advancing a cursor whose runs are all non-empty consumes exactly one
character and keeps the runs non-empty. -/
theorem MergeData.advance_cursor (l : List DiffRun) (hpos : ∀ r ∈ l, 0 < r.len) :
    ∃ l', MergeData.advance (.cursor l) = .cursor l' ∧ (∀ r ∈ l', 0 < r.len) ∧
      streamLen l' = streamLen l - 1 := by
  cases l with
  | nil => exact ⟨[], rfl, by simp, by simp [streamLen]⟩
  | cons r rest =>
      have hr : 0 < r.len := hpos r (by simp)
      by_cases h : r.len ≤ 1
      · refine ⟨rest, by simp [MergeData.advance, h], fun s hs => hpos s (by simp [hs]), ?_⟩
        simp only [streamLen, List.map_cons, List.sum_cons]
        omega
      · refine ⟨⟨r.kind, r.len - 1⟩ :: rest, by simp [MergeData.advance, h], ?_, ?_⟩
        · intro s hs
          rcases List.mem_cons.mp hs with h' | h'
          · subst h'; simp; omega
          · exact hpos s (by simp [h'])
        · simp only [streamLen, List.map_cons, List.sum_cons]
          omega

theorem MergeData.advanceN_cursor (n : Nat) (l : List DiffRun)
    (hpos : ∀ r ∈ l, 0 < r.len) :
    ∃ l', (MergeData.cursor l).advanceN n = .cursor l' ∧ (∀ r ∈ l', 0 < r.len) ∧
      streamLen l' = streamLen l - n := by
  induction n generalizing l with
  | zero => exact ⟨l, rfl, hpos, by simp⟩
  | succ n ih =>
      obtain ⟨l1, h1, hp1, hl1⟩ := MergeData.advance_cursor l hpos
      obtain ⟨l', h', hp', hl'⟩ := ih l1 hp1
      refine ⟨l', ?_, hp', by omega⟩
      simpa [MergeData.advanceN, h1] using h'

theorem MergeData.cursor_isEnd_iff (l : List DiffRun) (hpos : ∀ r ∈ l, 0 < r.len) :
    (MergeData.isEnd (.cursor l) = true) ↔ streamLen l = 0 := by
  cases l with
  | nil => simp [MergeData.isEnd, streamLen]
  | cons r rest =>
      have hr : 0 < r.len := hpos r (by simp)
      simp only [MergeData.isEnd, List.isEmpty_cons, streamLen, List.map_cons, List.sum_cons]
      constructor
      · intro h; cases h
      · intro h; omega

theorem MergeData.remaining_cursor (l : List DiffRun) :
    (MergeData.cursor l).remaining = streamLen l := rfl

/-- C1: for two well-formed streams declaring the same line length `L`,
every `next()` call consumes exactly one character from each cursor (after
`n` calls each cursor has `L - n` characters remaining), `isEndReached()`
becomes true exactly when both cursors are exhausted — after exactly
`min(len1, len2)` (= `L`) characters have been scanned — and with a null
second stream the scan is unbounded (`isEndReached()` never becomes true,
the bound coming externally from the line length). -/
theorem merger_lockstep_scan (l1 l2 : List DiffRun) (L : Nat)
    (h1 : wellFormedStream l1 L) (h2 : wellFormedStream l2 L) :
    (∀ n, ((Merger.mk (.cursor l1) (.cursor l2)).stepN n).md1.remaining = L - n ∧
          ((Merger.mk (.cursor l1) (.cursor l2)).stepN n).md2.remaining = L - n) ∧
    (∀ n, (((Merger.mk (.cursor l1) (.cursor l2)).stepN n).isEndReached = true ↔
          min (streamLen l1) (streamLen l2) ≤ n)) ∧
    (∀ n, ((Merger.mk (.cursor l1) .nullStream).stepN n).isEndReached = false) := by
  obtain ⟨hp1, hL1⟩ := h1
  obtain ⟨hp2, hL2⟩ := h2
  refine ⟨fun n => ?_, fun n => ?_, fun n => ?_⟩
  · rw [Merger.stepN_mk]
    obtain ⟨l1', e1, _, r1⟩ := MergeData.advanceN_cursor n l1 hp1
    obtain ⟨l2', e2, _, r2⟩ := MergeData.advanceN_cursor n l2 hp2
    simp only [e1, e2, MergeData.remaining_cursor]
    omega
  · rw [Merger.stepN_mk]
    obtain ⟨l1', e1, hp1', r1⟩ := MergeData.advanceN_cursor n l1 hp1
    obtain ⟨l2', e2, hp2', r2⟩ := MergeData.advanceN_cursor n l2 hp2
    simp only [e1, e2, Merger.isEndReached, Bool.and_eq_true,
      MergeData.cursor_isEnd_iff l1' hp1', MergeData.cursor_isEnd_iff l2' hp2']
    omega
  · rw [Merger.stepN_mk, MergeData.advanceN_nullStream]
    simp [Merger.isEndReached, MergeData.isEnd]

/-- Witness for C1: two well-formed streams of length 2; the end is reached
after exactly 2 scanned characters and not after 1. -/
theorem merger_lockstep_scan_witness :
    wellFormedStream [⟨RunKind.equal, 2⟩] 2 ∧
    wellFormedStream [⟨RunKind.changed, 1⟩, ⟨RunKind.equal, 1⟩] 2 ∧
    ((Merger.mk (.cursor [⟨RunKind.equal, 2⟩])
        (.cursor [⟨RunKind.changed, 1⟩, ⟨RunKind.equal, 1⟩])).stepN 2).isEndReached = true ∧
    ((Merger.mk (.cursor [⟨RunKind.equal, 2⟩])
        (.cursor [⟨RunKind.changed, 1⟩, ⟨RunKind.equal, 1⟩])).stepN 1).isEndReached ≠ true := by
  have h := merger_lockstep_scan [⟨RunKind.equal, 2⟩]
      [⟨RunKind.changed, 1⟩, ⟨RunKind.equal, 1⟩] 2
      ⟨by decide, by decide⟩ ⟨by decide, by decide⟩
  refine ⟨⟨by decide, by decide⟩, ⟨by decide, by decide⟩, ?_, ?_⟩
  · exact (h.2.1 2).mpr (by decide)
  · intro hc
    have := (h.2.1 1).mp hc
    simp [streamLen] at this

/-- C9: the `writeLine` scan of a 5-character line with
`stream1 = [equal(3), changed(2)]` and `stream2 = null` classifies the
characters as `[0, 0, 0, 1, 1]` (bit 1 set on the last two), and the null
stream never sets its bit (`eq` stays true) and never exhausts
(`isEnd` stays false), at every number of steps. -/
theorem merger_scenario1_null_stream :
    writeLineCharChanged (.cursor [⟨RunKind.equal, 3⟩, ⟨RunKind.changed, 2⟩])
        .nullStream 5 = [0, 0, 0, 1, 1] ∧
    (∀ n, ((Merger.mk (.cursor [⟨RunKind.equal, 3⟩, ⟨RunKind.changed, 2⟩])
              .nullStream).stepN n).md2.eq = true ∧
          ((Merger.mk (.cursor [⟨RunKind.equal, 3⟩, ⟨RunKind.changed, 2⟩])
              .nullStream).stepN n).md2.isEnd = false) := by
  refine ⟨by decide, fun n => ?_⟩
  rw [Merger.stepN_mk, MergeData.advanceN_nullStream]
  exact ⟨rfl, rfl⟩

/-! ## Materializing mode (difftextwindow.cpp 1735–1795)

When `wrapLineVectorSize > 0` the helper runs once over all rows.  For each
row it first copies the row's cached spans (collected by the measuring
passes) into consecutive `m_diff3WrapLineVector` entries — the chunked
cache walk of lines 1737–1767, whose net effect is to write row `i`'s
cached `(textStart, textLength)` pairs, in order, starting at
`wrapLineIdx`, and to leave `linesNeeded` = their count — and then the
emission loop of lines 1778–1795 stamps `diff3LineIndex` on exactly
`linesNeededForDisplay` entries, zeroing offset/length of the surplus
trailing ones.  We keep the cached spans abstract as `segs i`. -/

/-- `Diff3WrapLine` (declared in the missing difftextwindow.h; its three
data fields are read/written in difftextwindow.cpp 1748–1750 and
1783–1789; the `pD3L` back-pointer is omitted, being determined by
`diff3LineIndex`). -/
structure Diff3WrapLine where
  diff3LineIndex : Nat := 0
  wrapLineOffset : Nat := 0
  wrapLineLength : Nat := 0
  deriving Repr, DecidableEq

instance : Inhabited Diff3WrapLine := ⟨{}⟩

/-- The cache-walk writes (difftextwindow.cpp 1746–1752): row entries get
`wrapLineOffset = textStart`, `wrapLineLength = textLength` of the row's
cached spans, in order, at consecutive indices from `base` (writes beyond
the vector end do not happen, matching the loop's bound check). -/
def writeCachedSegs (vec : List Diff3WrapLine) (base : Nat) :
    List (Nat × Nat) → List Diff3WrapLine
  | [] => vec
  | s :: rest =>
      writeCachedSegs
        (vec.set base
          { vec.getD base default with wrapLineOffset := s.1, wrapLineLength := s.2 })
        (base + 1) rest

/-- The emission loop (difftextwindow.cpp 1781–1791):

    for(j = 0; wrapLineIdx < size && j < d3l.linesNeededForDisplay(); ++j, ++wrapLineIdx)
    {
        d3wl.diff3LineIndex = i;
        if(j >= linesNeeded) { d3wl.wrapLineOffset = 0; d3wl.wrapLineLength = 0; }
    }

The first argument is the remaining iteration count
`linesNeededForDisplay - j`; the result is the vector and the final
`wrapLineIdx`. -/
def emitLoop (i linesNeeded : Nat) :
    Nat → Nat → Nat → List Diff3WrapLine → List Diff3WrapLine × Nat
  | 0, _j, wrapLineIdx, vec => (vec, wrapLineIdx)
  | n + 1, j, wrapLineIdx, vec =>
      if wrapLineIdx < vec.length then
        let e := { vec.getD wrapLineIdx default with diff3LineIndex := i }
        let e := if linesNeeded ≤ j then
            { e with wrapLineOffset := 0, wrapLineLength := 0 } else e
        emitLoop i linesNeeded n (j + 1) (wrapLineIdx + 1) (vec.set wrapLineIdx e)
      else (vec, wrapLineIdx)

/-- One row of the materializing pass: the cache-walk writes followed by the
emission loop (`linesNeeded` is the number of cached spans for this row;
`needed` is the row's `linesNeededForDisplay` after the line-1772 check). -/
def materializeRow (vec : List Diff3WrapLine) (wrapLineIdx i : Nat)
    (segs : List (Nat × Nat)) (needed : Nat) : List Diff3WrapLine × Nat :=
  emitLoop i segs.length needed 0 wrapLineIdx (writeCachedSegs vec wrapLineIdx segs)

/-- The materializing pass (`wrapLineVectorSize > 0`): rows are processed in
order from row 0; each row runs `materializeRow` with
`needed = linesNeededForDisplay` after the line-1772 max-check
(`measureRowUpdate`, which asserts it is a no-op in this mode), and the
pass breaks once `wrapLineIdx` reaches the vector size (line 1793–1794).
The per-row `wasCancelled()` poll of line 1718 is retained. -/
def materializePass (segs : Nat → List (Nat × Nat)) (cancel : Nat → Bool) :
    List Diff3Line → Nat → Nat → List Diff3WrapLine → List Diff3WrapLine
  | [], _i, _wrapLineIdx, vec => vec
  | d3l :: rest, i, wrapLineIdx, vec =>
      if cancel i then vec
      else
        let d3l' := measureRowUpdate d3l (segs i).length
        let p := materializeRow vec wrapLineIdx i (segs i) d3l'.linesNeededForDisplay
        if p.1.length ≤ p.2 then p.1
        else materializePass segs cancel rest (i + 1) p.2 p.1

/-- Total number of visual lines the whole table needs: the agreed
`wrapLineVectorSize` with which `recalcWordWrap` is re-invoked after
measuring. -/
def totalNeeded (rows : List Diff3Line) : Nat :=
  (rows.map Diff3Line.linesNeededForDisplay).sum

/-- The wrap-line entry the materializing pass should produce for visual
line `j` of row `i` with cached spans `segs`: the `j`-th cached span while
one exists, and a filler record (offset 0, length 0) for the surplus
trailing slots. -/
def expectedWrapEntry (i : Nat) (segs : List (Nat × Nat)) (j : Nat) : Diff3WrapLine :=
  if j < segs.length then
    { diff3LineIndex := i, wrapLineOffset := (segs.getD j (0, 0)).1,
      wrapLineLength := (segs.getD j (0, 0)).2 }
  else { diff3LineIndex := i, wrapLineOffset := 0, wrapLineLength := 0 }

/-! ## Coordinate conversions (difftextwindow.cpp 511–525, 1467–1506)

Line numbers are kept as `Nat`: the source stores them in `LineRef` /
`LineType`, but every conversion below is only ever reached with
non-negative values (`line.isValid()` guards the one `-1` case, which maps
to itself through both directions). -/

/-- `DiffTextWindow::convertLineToDiff3LineIdx` (511–517): with word wrap
on and a non-empty wrap table, look up the clamped wrap-line entry's row
index; otherwise the identity. -/
def convertLineToDiff3LineIdx (bWordWrap : Bool) (vec : List Diff3WrapLine)
    (line : Nat) : Nat :=
  if bWordWrap ∧ 0 < vec.length then
    (vec.getD (min line (vec.length - 1)) default).diff3LineIndex
  else line

/-- `DiffTextWindow::convertDiff3LineIdxToLine` (519–525): with word wrap
on and a non-empty row table, the clamped row's `sumLinesNeededForDisplay`;
otherwise the identity. -/
def convertDiff3LineIdxToLine (bWordWrap : Bool) (rows : List Diff3Line)
    (d3lIdx : Nat) : Nat :=
  if bWordWrap ∧ 0 < rows.length then
    sumLinesNeededForDisplay rows (min d3lIdx (rows.length - 1))
  else d3lIdx

/-- The offset-consuming walk of `convertD3LCoordsToLineCoords` (1473–1477):

    while(wrapPos > d->m_diff3WrapLineVector[wrapLine].wrapLineLength)
    { wrapPos -= ...wrapLineLength; ++wrapLine; }

The source loop is unguarded; the first argument is a fuel bound, and every
theorem below only evaluates the walk where it provably stops within the
fuel. -/
def d3lForwardWalk (vec : List Diff3WrapLine) : Nat → Nat → Nat → Nat × Nat
  | 0, wrapLine, wrapPos => (wrapLine, wrapPos)
  | fuel + 1, wrapLine, wrapPos =>
      if (vec.getD wrapLine default).wrapLineLength < wrapPos then
        d3lForwardWalk vec fuel (wrapLine + 1)
          (wrapPos - (vec.getD wrapLine default).wrapLineLength)
      else (wrapLine, wrapPos)

/-- `DiffTextWindow::convertD3LCoordsToLineCoords` (1467–1486), returning
`(line, pos)`. -/
def convertD3LCoordsToLineCoords (bWordWrap : Bool) (rows : List Diff3Line)
    (vec : List Diff3WrapLine) (d3LIdx d3LPos : Nat) : Nat × Nat :=
  if bWordWrap then
    d3lForwardWalk vec (vec.length + 1)
      (convertDiff3LineIdxToLine bWordWrap rows d3LIdx) d3LPos
  else (d3LIdx, d3LPos)

/-- The length-accumulating walk of `convertLineCoordsToD3LCoords`
(1495–1499): `while(wrapLine < line) { d3LPos += ...wrapLineLength;
++wrapLine; }`.  The first argument is the remaining iteration count
`line - wrapLine`. -/
def d3lBackWalk (vec : List Diff3WrapLine) : Nat → Nat → Nat → Nat
  | 0, _wrapLine, acc => acc
  | n + 1, wrapLine, acc =>
      d3lBackWalk vec n (wrapLine + 1) (acc + (vec.getD wrapLine default).wrapLineLength)

/-- `DiffTextWindow::convertLineCoordsToD3LCoords` (1488–1506), returning
`(d3LIdx, d3LPos)`. -/
def convertLineCoordsToD3LCoords (bWordWrap : Bool) (rows : List Diff3Line)
    (vec : List Diff3WrapLine) (line pos : Nat) : Nat × Nat :=
  if bWordWrap then
    let d3LIdx := convertLineToDiff3LineIdx bWordWrap vec line
    let wrapLine := convertDiff3LineIdxToLine bWordWrap rows d3LIdx
    (d3LIdx, d3lBackWalk vec (line - wrapLine) wrapLine pos)
  else (line, pos)

/-- The wrap-segment lengths of the `needed` consecutive wrap-line entries
starting at `first` (a row's block in the wrap-line table). -/
def rowWrapLengths (vec : List Diff3WrapLine) (first needed : Nat) : List Nat :=
  (List.range needed).map (fun j => (vec.getD (first + j) default).wrapLineLength)

/-! ## `DiffTextWindowData::getString` (difftextwindow.cpp 1304–1318) -/

/-- `QString DiffTextWindowData::getString(LineType d3lIdx)`: empty string
when the line-data pointer is null, the vector is empty, the index is out
of range, or the row has no line for this window; otherwise that line's
text.  The final vector access is modelled with `List.getD ""`. -/
def getString (pLineData : Option (List String)) (winIdx : SrcSelector)
    (mDiff3LineVector : List Diff3Line) (d3lIdx : Int) : String :=
  match pLineData with
  | none => ""
  | some lineData =>
      if lineData.isEmpty ∨ d3lIdx < 0 ∨ (mDiff3LineVector.length : Int) ≤ d3lIdx then ""
      else
        let d3l := mDiff3LineVector.getD d3lIdx.toNat default
        let lineIdx := d3l.getLineIndex winIdx
        if lineIdx.isValid = false then ""
        else lineData.getD lineIdx.mLineNumber.toNat ""

/-! ## Word-wrap measuring-mode lemmas and theorems for claims C2 and C8 -/

theorem List.getD_set_ne' (l : List Diff3Line) (i j : Nat) (x : Diff3Line) (h : i ≠ j) :
    (l.set i x).getD j default = l.getD j default := by
  simp [List.getD, List.getElem?_set_ne h]

theorem List.getD_set_self' (l : List Diff3Line) (i : Nat) (x : Diff3Line) (h : i < l.length) :
    (l.set i x).getD i default = x := by
  simp [List.getD, List.getElem?_set_self, h]

theorem measureRowUpdate_lnfd (d : Diff3Line) (k : Nat) :
    (measureRowUpdate d k).linesNeededForDisplay = max d.linesNeededForDisplay k := by
  unfold measureRowUpdate
  split
  next h =>
    simp only [Diff3Line.setLinesNeeded, Diff3Line.linesNeededForDisplay] at *
    omega
  next h =>
    simp only [Diff3Line.linesNeededForDisplay] at *
    omega

theorem measuringPass_rows_length (layout : Nat → List (Nat × Nat)) (cancel : Nat → Bool)
    (rows : List Diff3Line) (idxs : List Nat) :
    (measuringPass layout cancel rows idxs).rows.length = rows.length := by
  induction idxs generalizing rows with
  | nil => rfl
  | cons i rest ih =>
      by_cases hc : cancel i
      · simp [measuringPass, hc]
      · simp only [measuringPass, hc, Bool.false_eq_true, if_false]
        rw [ih]
        simp

/-- One `rows.set` step of the measuring pass never lowers any row's cached
`linesNeededForDisplay`. -/
theorem measuringPass_step_le (rows : List Diff3Line) (i k : Nat) (r : Nat) :
    (rows.getD r default).linesNeededForDisplay ≤
      ((rows.set i (measureRowUpdate (rows.getD i default) k)).getD r default).linesNeededForDisplay := by
  by_cases hri : i = r
  · subst hri
    by_cases hlen : i < rows.length
    · rw [List.getD_set_self' rows i _ hlen, measureRowUpdate_lnfd]
      exact Nat.le_max_left _ _
    · rw [List.set_eq_of_length_le (by omega)]
  · rw [List.getD_set_ne' rows i r _ hri]

theorem measuringPass_monotone (layout : Nat → List (Nat × Nat)) (cancel : Nat → Bool)
    (rows : List Diff3Line) (idxs : List Nat) (r : Nat) :
    (rows.getD r default).linesNeededForDisplay ≤
      ((measuringPass layout cancel rows idxs).rows.getD r default).linesNeededForDisplay := by
  induction idxs generalizing rows with
  | nil => exact Nat.le_refl _
  | cons i rest ih =>
      by_cases hc : cancel i
      · simp [measuringPass, hc]
      · simp only [measuringPass, hc, Bool.false_eq_true, if_false]
        exact Nat.le_trans (measuringPass_step_le rows i _ r) (ih _)

/-- Rows whose index the pass never visits are left untouched. -/
theorem measuringPass_not_mem (layout : Nat → List (Nat × Nat)) (cancel : Nat → Bool)
    (rows : List Diff3Line) (idxs : List Nat) (r : Nat) (hr : r ∉ idxs) :
    (measuringPass layout cancel rows idxs).rows.getD r default = rows.getD r default := by
  induction idxs generalizing rows with
  | nil => rfl
  | cons i rest ih =>
      have hri : i ≠ r := fun h => hr (h ▸ List.mem_cons_self i rest)
      have hrest : r ∉ rest := fun h => hr (List.mem_cons_of_mem i h)
      by_cases hc : cancel i
      · simp [measuringPass, hc]
      · simp only [measuringPass, hc, Bool.false_eq_true, if_false]
        rw [ih _ hrest, List.getD_set_ne' rows i r _ hri]

/-- A cancelled measuring pass computes exactly what an uncancelled pass
over the prefix of rows before the first cancellation poll computes. -/
theorem measuringPass_cancel_truncate (layout : Nat → List (Nat × Nat)) (cancel : Nat → Bool)
    (rows : List Diff3Line) (idxs : List Nat) :
    (measuringPass layout cancel rows idxs).rows =
      (measuringPass layout (fun _ => false) rows
        (idxs.takeWhile (fun i => !cancel i))).rows := by
  induction idxs generalizing rows with
  | nil => rfl
  | cons i rest ih =>
      by_cases hc : cancel i
      · simp [measuringPass, hc, List.takeWhile_cons]
      · simp only [measuringPass, hc, Bool.false_eq_true, if_false, List.takeWhile_cons,
          Bool.not_false, if_true]
        exact ih _

theorem measuringPass_complete_iff (layout : Nat → List (Nat × Nat)) (cancel : Nat → Bool)
    (rows : List Diff3Line) (idxs : List Nat) :
    (measuringPass layout cancel rows idxs).complete = true ↔ ∀ i ∈ idxs, cancel i = false := by
  induction idxs generalizing rows with
  | nil => simp [measuringPass]
  | cons i rest ih =>
      by_cases hc : cancel i
      · simp [measuringPass, hc]
      · simp only [measuringPass, hc, Bool.false_eq_true, if_false]
        rw [ih]
        simp [hc]

/-- C2: a measuring-mode word-wrap pass (a) never lowers any row's cached
`linesNeededForDisplay`; (b) hence across repeated measuring-mode passes
(any widths, i.e. any measurement functions) the cache is monotonically
non-decreasing; and (c) an uncancelled pass visiting each row once raises
the cache exactly to the maximum of its current value and the freshly
measured visual-line count. -/
theorem measuring_raises_to_max (layout : Nat → List (Nat × Nat)) (cancel : Nat → Bool)
    (rows : List Diff3Line) (idxs : List Nat) :
    (∀ r, (rows.getD r default).linesNeededForDisplay ≤
        ((measuringPass layout cancel rows idxs).rows.getD r default).linesNeededForDisplay) ∧
    (∀ (layout2 : Nat → List (Nat × Nat)) (cancel2 : Nat → Bool) (idxs2 : List Nat) (r : Nat),
        ((measuringPass layout cancel rows idxs).rows.getD r default).linesNeededForDisplay ≤
        ((measuringPass layout2 cancel2
            (measuringPass layout cancel rows idxs).rows idxs2).rows.getD r
              default).linesNeededForDisplay) ∧
    (idxs.Nodup → (∀ i ∈ idxs, cancel i = false) →
      ∀ i ∈ idxs, i < rows.length →
        ((measuringPass layout cancel rows idxs).rows.getD i default).linesNeededForDisplay =
          max ((rows.getD i default).linesNeededForDisplay) (layout i).length) := by
  refine ⟨fun r => measuringPass_monotone layout cancel rows idxs r,
    fun layout2 cancel2 idxs2 r => measuringPass_monotone layout2 cancel2 _ idxs2 r,
    ?_⟩
  induction idxs generalizing rows with
  | nil => intro _ _ i hi; cases hi
  | cons i0 rest ih =>
      intro hnd hnc i hi hilen
      have hc0 : cancel i0 = false := hnc i0 (List.mem_cons_self i0 rest)
      simp only [measuringPass, hc0, Bool.false_eq_true, if_false]
      rcases List.mem_cons.mp hi with rfl | hmem
      · have hnr : i ∉ rest := (List.nodup_cons.mp hnd).1
        rw [measuringPass_not_mem _ _ _ _ _ hnr,
          List.getD_set_self' rows i _ hilen, measureRowUpdate_lnfd]
      · have hne : i0 ≠ i := fun h => (List.nodup_cons.mp hnd).1 (h ▸ hmem)
        have := ih (rows.set i0 (measureRowUpdate (rows.getD i0 default) (layout i0).length))
          (List.nodup_cons.mp hnd).2 (fun j hj => hnc j (List.mem_cons_of_mem i0 hj))
          i hmem (by simpa using hilen)
        rwa [List.getD_set_ne' rows i0 i _ hne] at this

/-- Witness for C2: two rows with caches 1 and 2, measured at 3 and 1
visual lines; the pass raises the first to 3 and keeps the second at 2. -/
theorem measuring_raises_to_max_witness :
    ((measuringPass (fun i => if i = 0 then [(0, 4), (4, 4), (8, 2)] else [(0, 3)])
        (fun _ => false)
        [{ m_linesNeededForDisplay := 1 }, { m_linesNeededForDisplay := 2 }]
        [0, 1]).rows.getD 0 default).linesNeededForDisplay = 3 ∧
    ((measuringPass (fun i => if i = 0 then [(0, 4), (4, 4), (8, 2)] else [(0, 3)])
        (fun _ => false)
        [{ m_linesNeededForDisplay := 1 }, { m_linesNeededForDisplay := 2 }]
        [0, 1]).rows.getD 1 default).linesNeededForDisplay = 2 := by
  have h := (measuring_raises_to_max
      (fun i => if i = 0 then [(0, 4), (4, 4), (8, 2)] else [(0, 3)])
      (fun _ => false)
      [{ m_linesNeededForDisplay := 1 }, { m_linesNeededForDisplay := 2 }]
      [0, 1]).2.2 (by decide) (fun i _ => rfl)
  exact ⟨(h 0 (by decide) (by decide)).trans (by decide),
    (h 1 (by decide) (by decide)).trans (by decide)⟩

/-- C8: when cancellation is signalled during a measuring pass, the pass
polls the flag before each row and returns at a row boundary: the rows it
has processed are exactly the prefix before the first positive poll (the
result equals an uncancelled pass over that prefix), every row outside that
prefix keeps its prior cached `linesNeededForDisplay`, and the pass reports
itself incomplete. -/
theorem measuring_cancellation_partial (layout : Nat → List (Nat × Nat)) (cancel : Nat → Bool)
    (rows : List Diff3Line) (idxs : List Nat)
    (hc : ∃ i ∈ idxs, cancel i = true) :
    (measuringPass layout cancel rows idxs).complete = false ∧
    (measuringPass layout cancel rows idxs).rows =
      (measuringPass layout (fun _ => false) rows
        (idxs.takeWhile (fun i => !cancel i))).rows ∧
    (∀ r, r ∉ idxs.takeWhile (fun i => !cancel i) →
      (measuringPass layout cancel rows idxs).rows.getD r default = rows.getD r default) := by
  obtain ⟨i0, hi0, hci0⟩ := hc
  refine ⟨?_, measuringPass_cancel_truncate layout cancel rows idxs, ?_⟩
  · rcases h : (measuringPass layout cancel rows idxs).complete with _ | _
    · rfl
    · exact absurd hci0 (by simp [(measuringPass_complete_iff layout cancel rows idxs).mp h i0 hi0])
  · intro r hr
    rw [measuringPass_cancel_truncate layout cancel rows idxs,
      measuringPass_not_mem _ _ _ _ _ hr]

/-- Witness for C8: three rows, cancellation polled positive at row 1:
row 0 is processed (raised to 2), rows 1 and 2 keep their prior caches, and
the pass reports incomplete. -/
theorem measuring_cancellation_partial_witness :
    (∃ i ∈ [0, 1, 2], (fun j => decide (1 ≤ j)) i = true) ∧
    (measuringPass (fun _ => [(0, 2), (2, 2)]) (fun j => decide (1 ≤ j))
        [{ m_linesNeededForDisplay := 1 }, { m_linesNeededForDisplay := 1 },
          { m_linesNeededForDisplay := 1 }] [0, 1, 2]).complete = false ∧
    ((measuringPass (fun _ => [(0, 2), (2, 2)]) (fun j => decide (1 ≤ j))
        [{ m_linesNeededForDisplay := 1 }, { m_linesNeededForDisplay := 1 },
          { m_linesNeededForDisplay := 1 }] [0, 1, 2]).rows.getD 2 default
      = { m_linesNeededForDisplay := 1 }) := by
  have h := measuring_cancellation_partial (fun _ => [(0, 2), (2, 2)])
      (fun j => decide (1 ≤ j))
      [{ m_linesNeededForDisplay := 1 }, { m_linesNeededForDisplay := 1 },
        { m_linesNeededForDisplay := 1 }] [0, 1, 2]
      ⟨1, by decide, by decide⟩
  exact ⟨⟨1, by decide, by decide⟩, h.1, (h.2.2 2 (by decide)).trans (by decide)⟩

/-! ## Theorems for claims C5 and C6 -/

/-- C5 counterexample: the claim "applying pre-increment, post-increment,
pre-decrement, or post-decrement leaves the LineRef invalid" is false on the
code: pre-incrementing the invalid sentinel (-1) yields 0, which `isValid()`
reports as a valid line, and pre-decrementing yields -2, also reported valid. -/
theorem lineRef_sentinel_not_preserved :
    (LineRef.invalidRef.preInc.isValid = true) ∧
    (LineRef.invalidRef.preDec.isValid = true) ∧
    ¬ (LineRef.invalidRef.preInc.isValid = false) := by
  decide

/-- C5 (amended): increment and decrement perform plain arithmetic on the
stored number with no sentinel check: applied to the invalid sentinel (-1),
pre/post-increment produce the value 0 and pre/post-decrement produce -2;
both results are reported valid by `isValid()` (which only tests `≠ -1`),
so the sentinel is not preserved.  The post-forms return the original
(still invalid) copy. -/
theorem lineRef_incdec_arithmetic :
    LineRef.invalidRef.preInc.mLineNumber = 0 ∧
    LineRef.invalidRef.preDec.mLineNumber = -2 ∧
    LineRef.invalidRef.postInc = (LineRef.invalidRef, ⟨0⟩) ∧
    LineRef.invalidRef.postDec = (LineRef.invalidRef, ⟨-2⟩) ∧
    LineRef.invalidRef.preInc.isValid = true ∧
    LineRef.invalidRef.preDec.isValid = true ∧
    LineRef.invalidRef.postInc.1.isValid = false := by
  decide

/-- C6: constructing a `LineRef` from a 64-bit unsigned integer stores the
value exactly (no wrap) when it is at most `2^31 - 1` and the invalid
sentinel otherwise; constructing from a 64-bit signed integer stores the
value exactly when `0 ≤ i ≤ 2^31 - 1` and the sentinel otherwise. -/
theorem lineRef_range_checked_construction (u : Nat) (i : Int)
    (hu : u < 2 ^ 64) (hi : -(2 ^ 63) ≤ i ∧ i < 2 ^ 63) :
    ((u : Int) ≤ lineTypeMax → (LineRef.fromUInt64 u).mLineNumber = (u : Int) ∧
        (LineRef.fromUInt64 u).isValid = true) ∧
    ((u : Int) > lineTypeMax → LineRef.fromUInt64 u = LineRef.invalidRef) ∧
    (0 ≤ i ∧ i ≤ lineTypeMax → (LineRef.fromInt64 i).mLineNumber = i ∧
        (LineRef.fromInt64 i).isValid = true) ∧
    ((i < 0 ∨ i > lineTypeMax) → LineRef.fromInt64 i = LineRef.invalidRef) := by
  refine ⟨fun h => ?_, fun h => ?_, fun h => ?_, fun h => ?_⟩
  · have : LineRef.fromUInt64 u = ⟨(u : Int)⟩ := by
      simp [LineRef.fromUInt64, h]
    refine ⟨by simp [this], ?_⟩
    simp only [this, LineRef.isValid, LineRef.invalidVal]
    have : (0 : Int) ≤ (u : Int) := Int.ofNat_nonneg u
    simp only [bne_iff_ne, ne_eq]
    omega
  · simp only [LineRef.fromUInt64, LineRef.invalidRef]
    rw [if_neg (by omega)]
  · have : LineRef.fromInt64 i = ⟨i⟩ := by
      simp [LineRef.fromInt64, h.1, h.2]
    refine ⟨by simp [this], ?_⟩
    simp only [this, LineRef.isValid, LineRef.invalidVal, bne_iff_ne, ne_eq]
    omega
  · simp only [LineRef.fromInt64, LineRef.invalidRef]
    rw [if_neg (by omega)]

/-- Witness for C6 at concrete inputs: `u = 5` (in range), `i = -3`
(negative, maps to the sentinel). -/
theorem lineRef_range_checked_construction_witness :
    (5 : Nat) < 2 ^ 64 ∧
    (LineRef.fromUInt64 5).mLineNumber = 5 ∧
    LineRef.fromInt64 (-3) = LineRef.invalidRef := by
  have h := lineRef_range_checked_construction 5 (-3) (by norm_num)
      ⟨by norm_num, by norm_num⟩
  refine ⟨by norm_num, (h.1 (by norm_num [lineTypeMax])).1, ?_⟩
  exact h.2.2.2 (Or.inl (by norm_num))

/-! ## Materializing-mode lemmas and theorem for claim C4 -/

theorem wrapVec_getD_set_ne (l : List Diff3WrapLine) (i j : Nat) (x : Diff3WrapLine)
    (h : i ≠ j) : (l.set i x).getD j default = l.getD j default := by
  simp [List.getD, List.getElem?_set_ne h]

theorem wrapVec_getD_set_self (l : List Diff3WrapLine) (i : Nat) (x : Diff3WrapLine)
    (h : i < l.length) : (l.set i x).getD i default = x := by
  simp [List.getD, List.getElem?_set_self, h]

theorem measureRowUpdate_eq_self (d : Diff3Line) (k : Nat)
    (h : k ≤ d.linesNeededForDisplay) : measureRowUpdate d k = d := by
  unfold measureRowUpdate
  rw [if_neg (by omega)]

theorem totalNeeded_cons (d : Diff3Line) (rest : List Diff3Line) :
    totalNeeded (d :: rest) = d.linesNeededForDisplay + totalNeeded rest := by
  simp [totalNeeded]

theorem sumLND_cons_zero (d : Diff3Line) (rest : List Diff3Line) :
    sumLinesNeededForDisplay (d :: rest) 0 = 0 := rfl

theorem sumLND_cons_succ (d : Diff3Line) (rest : List Diff3Line) (k : Nat) :
    sumLinesNeededForDisplay (d :: rest) (k + 1) =
      d.linesNeededForDisplay + sumLinesNeededForDisplay rest k := by
  simp [sumLinesNeededForDisplay]

theorem lnfd_le_totalNeeded (rows : List Diff3Line) (k : Nat) (hk : k < rows.length) :
    (rows.getD k default).linesNeededForDisplay ≤ totalNeeded rows := by
  induction rows generalizing k with
  | nil => cases hk
  | cons d rest ih =>
      cases k with
      | zero => rw [totalNeeded_cons]; simp [List.getD]
      | succ k' =>
          rw [totalNeeded_cons]
          have := ih k' (by simpa using hk)
          simp only [List.getD_cons_succ]
          omega

theorem writeCachedSegs_length (segs : List (Nat × Nat)) (vec : List Diff3WrapLine)
    (base : Nat) : (writeCachedSegs vec base segs).length = vec.length := by
  induction segs generalizing vec base with
  | nil => rfl
  | cons s rest ih =>
      rw [writeCachedSegs, ih]
      simp

theorem writeCachedSegs_getD_lt (segs : List (Nat × Nat)) (vec : List Diff3WrapLine)
    (base m : Nat) (h : m < base) :
    (writeCachedSegs vec base segs).getD m default = vec.getD m default := by
  induction segs generalizing vec base with
  | nil => rfl
  | cons s rest ih =>
      rw [writeCachedSegs, ih _ (base + 1) (by omega)]
      exact wrapVec_getD_set_ne _ _ _ _ (by omega)

theorem writeCachedSegs_getD_in (segs : List (Nat × Nat)) (vec : List Diff3WrapLine)
    (base t : Nat) (ht : t < segs.length) (hb : base + t < vec.length) :
    (writeCachedSegs vec base segs).getD (base + t) default =
      { vec.getD (base + t) default with
        wrapLineOffset := (segs.getD t (0, 0)).1,
        wrapLineLength := (segs.getD t (0, 0)).2 } := by
  induction segs generalizing vec base t with
  | nil => cases ht
  | cons s rest ih =>
      cases t with
      | zero =>
          simp only [Nat.add_zero]
          rw [writeCachedSegs, writeCachedSegs_getD_lt rest _ (base + 1) base (by omega)]
          simpa using wrapVec_getD_set_self vec base _ (by omega)
      | succ t' =>
          rw [writeCachedSegs, show base + (t' + 1) = (base + 1) + t' by omega,
            ih _ (base + 1) t' (by simpa using ht) (by simp; omega)]
          rw [wrapVec_getD_set_ne vec base ((base + 1) + t') _ (by omega)]
          simp

theorem emitLoop_spec (i L : Nat) (n : Nat) :
    ∀ (j base : Nat) (vec : List Diff3WrapLine), base + n ≤ vec.length →
      (emitLoop i L n j base vec).1.length = vec.length ∧
      (emitLoop i L n j base vec).2 = base + n ∧
      (∀ m, m < base →
        (emitLoop i L n j base vec).1.getD m default = vec.getD m default) ∧
      (∀ t, t < n →
        (emitLoop i L n j base vec).1.getD (base + t) default =
          (if L ≤ j + t then
            { diff3LineIndex := i, wrapLineOffset := 0, wrapLineLength := 0 }
          else { vec.getD (base + t) default with diff3LineIndex := i })) := by
  induction n with
  | zero =>
      intro j base vec _
      exact ⟨rfl, rfl, fun m _ => rfl, fun t ht => absurd ht (by omega)⟩
  | succ n ih =>
      intro j base vec h
      rw [emitLoop, if_pos (by omega)]
      set e0 : Diff3WrapLine :=
        (if L ≤ j then
          { { vec.getD base default with diff3LineIndex := i } with
              wrapLineOffset := 0, wrapLineLength := 0 }
        else { vec.getD base default with diff3LineIndex := i }) with he0
      have hlen : (vec.set base e0).length = vec.length := by simp
      obtain ⟨ih1, ih2, ih3, ih4⟩ :=
        ih (j + 1) (base + 1) (vec.set base e0) (by omega)
      refine ⟨by rw [ih1, hlen], by rw [ih2]; omega, ?_, ?_⟩
      · intro m hm
        rw [ih3 m (by omega), wrapVec_getD_set_ne _ _ _ _ (by omega)]
      · intro t ht
        cases t with
        | zero =>
            rw [show base + 0 = base by omega, ih3 base (by omega),
              wrapVec_getD_set_self vec base e0 (by omega), he0]
            rcases hvec : vec.getD base default with ⟨a, b, c⟩
            by_cases hL : L ≤ j
            · rw [if_pos hL, if_pos (by omega)]
            · rw [if_neg hL, if_neg (by omega)]
        | succ t' =>
            rw [show base + (t' + 1) = (base + 1) + t' by omega, ih4 t' (by omega),
              show j + 1 + t' = j + (t' + 1) by omega]
            by_cases hL : L ≤ j + (t' + 1)
            · rw [if_pos hL, if_pos hL]
            · rw [if_neg hL, if_neg hL,
                wrapVec_getD_set_ne _ _ _ _ (by omega)]

theorem materializeRow_spec (vec : List Diff3WrapLine) (base i : Nat)
    (segs : List (Nat × Nat)) (needed : Nat)
    (hb : base + needed ≤ vec.length) (_hs : segs.length ≤ needed) :
    (materializeRow vec base i segs needed).1.length = vec.length ∧
    (materializeRow vec base i segs needed).2 = base + needed ∧
    (∀ m, m < base →
      (materializeRow vec base i segs needed).1.getD m default = vec.getD m default) ∧
    (∀ j, j < needed →
      (materializeRow vec base i segs needed).1.getD (base + j) default =
        expectedWrapEntry i segs j) := by
  unfold materializeRow
  have hw : (writeCachedSegs vec base segs).length = vec.length :=
    writeCachedSegs_length segs vec base
  obtain ⟨e1, e2, e3, e4⟩ :=
    emitLoop_spec i segs.length needed 0 base (writeCachedSegs vec base segs)
      (by omega)
  refine ⟨by rw [e1, hw], by rw [e2], ?_, ?_⟩
  · intro m hm
    rw [e3 m hm, writeCachedSegs_getD_lt segs vec base m hm]
  · intro j hj
    rw [e4 j hj, expectedWrapEntry]
    by_cases hjL : j < segs.length
    · rw [if_neg (by omega), if_pos hjL,
        writeCachedSegs_getD_in segs vec base j hjL (by omega)]
    · rw [if_pos (by omega), if_neg hjL]

theorem materializePass_spec (segs : Nat → List (Nat × Nat)) :
    ∀ (rows : List Diff3Line) (i base : Nat) (vec : List Diff3WrapLine),
      vec.length = base + totalNeeded rows →
      (∀ k, k < rows.length →
        (segs (i + k)).length ≤ (rows.getD k default).linesNeededForDisplay) →
      (materializePass segs (fun _ => false) rows i base vec).length = vec.length ∧
      (∀ m, m < base →
        (materializePass segs (fun _ => false) rows i base vec).getD m default =
          vec.getD m default) ∧
      (∀ k, k < rows.length →
        ∀ j, j < (rows.getD k default).linesNeededForDisplay →
        (materializePass segs (fun _ => false) rows i base vec).getD
            (base + sumLinesNeededForDisplay rows k + j) default =
          expectedWrapEntry (i + k) (segs (i + k)) j) := by
  intro rows
  induction rows with
  | nil =>
      intro i base vec _ _
      exact ⟨rfl, fun m _ => rfl, fun k hk => absurd hk (by simp)⟩
  | cons d3l rest ih =>
      intro i base vec hlen hseg
      have hseg0 : (segs i).length ≤ d3l.linesNeededForDisplay := by
        have := hseg 0 (by simp)
        simpa [List.getD] using this
      have hupd : measureRowUpdate d3l (segs i).length = d3l :=
        measureRowUpdate_eq_self d3l _ hseg0
      rw [totalNeeded_cons] at hlen
      have hb : base + d3l.linesNeededForDisplay ≤ vec.length := by omega
      obtain ⟨m1, m2, m3, m4⟩ :=
        materializeRow_spec vec base i (segs i) d3l.linesNeededForDisplay hb hseg0
      rw [materializePass, if_neg (by simp), hupd]
      set p := materializeRow vec base i (segs i) d3l.linesNeededForDisplay with hp
      by_cases hbreak : p.1.length ≤ p.2
      · rw [if_pos hbreak]
        have hrest0 : totalNeeded rest = 0 := by
          rw [m1, m2] at hbreak; omega
        refine ⟨m1, m3, ?_⟩
        intro k hk j hj
        cases k with
        | zero =>
            rw [sumLND_cons_zero]
            have := m4 j (by simpa [List.getD] using hj)
            simpa [List.getD] using this
        | succ k' =>
            exfalso
            have hk' : k' < rest.length := by simpa using hk
            have h1 : (rest.getD k' default).linesNeededForDisplay ≤ totalNeeded rest :=
              lnfd_le_totalNeeded rest k' hk'
            have h2 : ((d3l :: rest).getD (k' + 1) default) = rest.getD k' default :=
              List.getD_cons_succ
            rw [h2] at hj
            omega
      · rw [if_neg hbreak]
        obtain ⟨r1, r2, r3⟩ := ih (i + 1) p.2 p.1
          (by rw [m1, m2]; omega)
          (by
            intro k hk
            have := hseg (k + 1) (by simpa using hk)
            rw [show i + (k + 1) = i + 1 + k by omega] at this
            simpa [List.getD_cons_succ] using this)
        refine ⟨by rw [r1, m1], ?_, ?_⟩
        · intro m hm
          rw [r2 m (by omega), m3 m hm]
        · intro k hk j hj
          cases k with
          | zero =>
              rw [sumLND_cons_zero]
              have hj' : j < d3l.linesNeededForDisplay := by
                simpa [List.getD] using hj
              have hpos : base + 0 + j < p.2 := by rw [m2]; omega
              rw [r2 _ (by omega)]
              have := m4 j hj'
              simpa [List.getD] using this
          | succ k' =>
              have hk' : k' < rest.length := by simpa using hk
              have hj' : j < (rest.getD k' default).linesNeededForDisplay := by
                simpa [List.getD_cons_succ] using hj
              have := r3 k' hk' j hj'
              rw [sumLND_cons_succ]
              rw [show base + (d3l.linesNeededForDisplay + sumLinesNeededForDisplay rest k') + j
                  = p.2 + sumLinesNeededForDisplay rest k' + j by rw [m2]; omega,
                show i + (k' + 1) = i + 1 + k' by omega]
              exact this

/-- C4: in materializing mode the engine emits exactly
`linesNeededForDisplay` wrap-line entries for every row — row `k`'s block
occupies the visual-line slots starting at the sum of the preceding rows'
counts — and each surplus trailing entry of a row (index within the row at
least the row's own measured visual-line count) is a filler record with
`wrapLineOffset = 0` and `wrapLineLength = 0` that still carries the row's
`diff3LineIndex` and occupies its visual-line slot. -/
theorem materializing_emits_blocks (segs : Nat → List (Nat × Nat))
    (rows : List Diff3Line) (vec0 : List Diff3WrapLine)
    (hlen : vec0.length = totalNeeded rows)
    (hseg : ∀ k, k < rows.length →
      (segs k).length ≤ (rows.getD k default).linesNeededForDisplay) :
    (materializePass segs (fun _ => false) rows 0 0 vec0).length = totalNeeded rows ∧
    (∀ k, k < rows.length →
      ∀ j, j < (rows.getD k default).linesNeededForDisplay →
      (materializePass segs (fun _ => false) rows 0 0 vec0).getD
          (sumLinesNeededForDisplay rows k + j) default =
        expectedWrapEntry k (segs k) j) ∧
    (∀ k, k < rows.length →
      ∀ j, (segs k).length ≤ j → j < (rows.getD k default).linesNeededForDisplay →
      (materializePass segs (fun _ => false) rows 0 0 vec0).getD
          (sumLinesNeededForDisplay rows k + j) default =
        { diff3LineIndex := k, wrapLineOffset := 0, wrapLineLength := 0 }) := by
  obtain ⟨h1, _, h3⟩ := materializePass_spec segs rows 0 0 vec0 (by omega)
    (by intro k hk; simpa using hseg k hk)
  have hmain : ∀ k, k < rows.length →
      ∀ j, j < (rows.getD k default).linesNeededForDisplay →
      (materializePass segs (fun _ => false) rows 0 0 vec0).getD
          (sumLinesNeededForDisplay rows k + j) default =
        expectedWrapEntry k (segs k) j := by
    intro k hk j hj
    have := h3 k hk j hj
    simpa using this
  refine ⟨by rw [h1, hlen], hmain, ?_⟩
  intro k hk j hjs hj
  rw [hmain k hk j hj, expectedWrapEntry, if_neg (by omega)]

/-- Witness for C4 (spec scenario 3, the side needing only 1 of 3 agreed
visual lines): one row with `linesNeededForDisplay = 3` whose own text
measured a single span `(0,5)`; the pass fills slot 0 with the span and
slots 1 and 2 with fillers. -/
theorem materializing_emits_blocks_witness :
    ([(⟨default, default, default, 3⟩ : Diff3Line)].map
        Diff3Line.linesNeededForDisplay).sum = 3 ∧
    (materializePass (fun _ => [(0, 5)]) (fun _ => false)
        [⟨default, default, default, 3⟩] 0 0
        [default, default, default]).getD 0 default =
      { diff3LineIndex := 0, wrapLineOffset := 0, wrapLineLength := 5 } ∧
    (materializePass (fun _ => [(0, 5)]) (fun _ => false)
        [⟨default, default, default, 3⟩] 0 0
        [default, default, default]).getD 2 default =
      { diff3LineIndex := 0, wrapLineOffset := 0, wrapLineLength := 0 } := by
  have h := materializing_emits_blocks (fun _ => [(0, 5)])
      [⟨default, default, default, 3⟩] [default, default, default]
      (by decide) (by decide)
  refine ⟨by decide, ?_, ?_⟩
  · exact ((h.2.1 0 (by decide) 0 (by decide)).trans (by decide))
  · exact ((h.2.2 0 (by decide) 2 (by decide) (by decide)).trans (by decide))

/-! ## Coordinate-conversion lemmas and theorems for claims C7 and C3 -/

/-- C7: a coordinate-conversion query beyond the end of the table is
clamped to the last valid entry rather than failing:
`convertLineToDiff3LineIdx` answers any visual line at or beyond the table
size exactly as it answers the last wrap-line entry, and
`convertDiff3LineIdxToLine` answers any row index at or beyond the row
count exactly as it answers the last aligned row. -/
theorem convert_out_of_range_clamps (vec : List Diff3WrapLine) (rows : List Diff3Line)
    (line d3lIdx : Nat) (hvec : 0 < vec.length) (hrows : 0 < rows.length)
    (hline : vec.length ≤ line) (hidx : rows.length ≤ d3lIdx) :
    convertLineToDiff3LineIdx true vec line =
      convertLineToDiff3LineIdx true vec (vec.length - 1) ∧
    convertDiff3LineIdxToLine true rows d3lIdx =
      convertDiff3LineIdxToLine true rows (rows.length - 1) := by
  constructor
  · unfold convertLineToDiff3LineIdx
    rw [if_pos ⟨rfl, hvec⟩, if_pos ⟨rfl, hvec⟩,
      show min line (vec.length - 1) = vec.length - 1 by omega,
      show min (vec.length - 1) (vec.length - 1) = vec.length - 1 by omega]
  · unfold convertDiff3LineIdxToLine
    rw [if_pos ⟨rfl, hrows⟩, if_pos ⟨rfl, hrows⟩,
      show min d3lIdx (rows.length - 1) = rows.length - 1 by omega,
      show min (rows.length - 1) (rows.length - 1) = rows.length - 1 by omega]

/-- Witness for C7: a one-entry wrap table and a two-row table, queried
three past their ends. -/
theorem convert_out_of_range_clamps_witness :
    convertLineToDiff3LineIdx true [(⟨0, 0, 3⟩ : Diff3WrapLine)] 4 = 0 ∧
    convertDiff3LineIdxToLine true
      [⟨default, default, default, 2⟩, ⟨default, default, default, 1⟩] 5 = 2 := by
  have h := convert_out_of_range_clamps [(⟨0, 0, 3⟩ : Diff3WrapLine)]
      [⟨default, default, default, 2⟩, ⟨default, default, default, 1⟩]
      4 5 (by decide) (by decide) (by decide) (by decide)
  exact ⟨h.1.trans (by decide), h.2.trans (by decide)⟩

theorem rowWrapLengths_length (vec : List Diff3WrapLine) (first needed : Nat) :
    (rowWrapLengths vec first needed).length = needed := by
  simp [rowWrapLengths]

theorem rowWrapLengths_getD (vec : List Diff3WrapLine) (first needed j : Nat)
    (hj : j < needed) :
    (rowWrapLengths vec first needed).getD j 0 =
      (vec.getD (first + j) default).wrapLineLength := by
  simp [rowWrapLengths, List.getD, List.getElem?_map, List.getElem?_range, hj]

/-- The offset-consuming walk, started at the first wrap line of a row
block whose segment lengths are `Ls`, stops inside the block: it lands on
segment `s` with a residue `rem` that fits that segment, and the prefix
sums account for the original offset. -/
theorem d3lForwardWalk_spec (vec : List Diff3WrapLine) (Ls : List Nat) :
    ∀ (start off fuel : Nat),
      (∀ j, j < Ls.length →
        (vec.getD (start + j) default).wrapLineLength = Ls.getD j 0) →
      Ls ≠ [] → off ≤ Ls.sum → Ls.length ≤ fuel →
      ∃ s rem, d3lForwardWalk vec fuel start off = (start + s, rem) ∧
        s < Ls.length ∧ rem ≤ Ls.getD s 0 ∧ (Ls.take s).sum + rem = off := by
  induction Ls with
  | nil => intro _ _ _ _ hne; exact absurd rfl hne
  | cons L0 rest ih =>
      intro start off fuel hmatch _ hoff hfuel
      have hL0 : (vec.getD (start + 0) default).wrapLineLength = L0 := by
        simpa using hmatch 0 (by simp)
      rw [Nat.add_zero] at hL0
      cases fuel with
      | zero => simp at hfuel
      | succ fuel' =>
          rw [d3lForwardWalk]
          by_cases hc : (vec.getD start default).wrapLineLength < off
          · rw [if_pos hc]
            have hcL : L0 < off := by rw [hL0] at hc; exact hc
            have hrest_ne : rest ≠ [] := by
              rcases rest with _ | ⟨a, t⟩
              · exfalso
                simp only [List.sum_cons, List.sum_nil] at hoff
                omega
              · simp
            have hmatch' : ∀ j, j < rest.length →
                (vec.getD (start + 1 + j) default).wrapLineLength = rest.getD j 0 := by
              intro j hj
              have := hmatch (j + 1) (by simpa using Nat.succ_lt_succ hj)
              rw [show start + (j + 1) = start + 1 + j by omega] at this
              simpa using this
            have hoff' : off - (vec.getD start default).wrapLineLength ≤ rest.sum := by
              rw [hL0]
              simp only [List.sum_cons] at hoff
              omega
            obtain ⟨s', rem, heq, hs', hrem, hsum⟩ :=
              ih (start + 1) (off - (vec.getD start default).wrapLineLength) fuel'
                hmatch' hrest_ne hoff' (by simpa using hfuel)
            refine ⟨s' + 1, rem, ?_, by simpa using Nat.succ_lt_succ hs',
              by simpa using hrem, ?_⟩
            · rw [heq, show start + 1 + s' = start + (s' + 1) by omega]
            · rw [hL0] at hsum
              simp only [List.take_succ_cons, List.sum_cons]
              omega
          · rw [if_neg hc]
            refine ⟨0, off, by simp, by simp, ?_, by simp⟩
            rw [hL0] at hc
            simpa using Nat.le_of_not_lt hc

/-- The length-accumulating walk over `s` wrap lines of a block with
segment lengths `Ls` adds exactly the first `s` lengths. -/
theorem d3lBackWalk_spec (vec : List Diff3WrapLine) :
    ∀ (s : Nat) (Ls : List Nat) (start acc : Nat), s ≤ Ls.length →
      (∀ j, j < Ls.length →
        (vec.getD (start + j) default).wrapLineLength = Ls.getD j 0) →
      d3lBackWalk vec s start acc = acc + (Ls.take s).sum := by
  intro s
  induction s with
  | zero => intro Ls start acc _ _; simp [d3lBackWalk]
  | succ s' ih =>
      intro Ls start acc hs hmatch
      rcases Ls with _ | ⟨L0, rest⟩
      · simp at hs
      · have hL0 : (vec.getD (start + 0) default).wrapLineLength = L0 := by
          simpa using hmatch 0 (by simp)
        rw [Nat.add_zero] at hL0
        rw [d3lBackWalk, hL0]
        have hmatch' : ∀ j, j < rest.length →
            (vec.getD (start + 1 + j) default).wrapLineLength = rest.getD j 0 := by
          intro j hj
          have := hmatch (j + 1) (by simpa using Nat.succ_lt_succ hj)
          rw [show start + (j + 1) = start + 1 + j by omega] at this
          simpa using this
        rw [ih rest (start + 1) (acc + L0) (by simpa using hs) hmatch']
        simp only [List.take_succ_cons, List.sum_cons]
        omega

/-- C3: converting a pair (aligned row, offset within the row) to wrapped
visual-line coordinates with `convertD3LCoordsToLineCoords` and back with
`convertLineCoordsToD3LCoords` returns the original pair, for every row of
the table and every valid offset (at most the row's total wrapped length),
both with word wrap on (for a well-formed wrap table: the row's block of
`linesNeededForDisplay` entries starts at the preceding rows' sum and
carries its row index) and with word wrap off (both conversions are the
identity). -/
theorem coords_roundtrip (rows : List Diff3Line) (vec : List Diff3WrapLine)
    (r off : Nat) (hr : r < rows.length)
    (hneed : 0 < (rows.getD r default).linesNeededForDisplay)
    (hbound : sumLinesNeededForDisplay rows r +
        (rows.getD r default).linesNeededForDisplay ≤ vec.length)
    (hidx : ∀ j, j < (rows.getD r default).linesNeededForDisplay →
      (vec.getD (sumLinesNeededForDisplay rows r + j) default).diff3LineIndex = r)
    (hoff : off ≤ (rowWrapLengths vec (sumLinesNeededForDisplay rows r)
        (rows.getD r default).linesNeededForDisplay).sum) :
    (convertLineCoordsToD3LCoords true rows vec
        (convertD3LCoordsToLineCoords true rows vec r off).1
        (convertD3LCoordsToLineCoords true rows vec r off).2) = (r, off) ∧
    (convertLineCoordsToD3LCoords false rows vec
        (convertD3LCoordsToLineCoords false rows vec r off).1
        (convertD3LCoordsToLineCoords false rows vec r off).2) = (r, off) := by
  set first := sumLinesNeededForDisplay rows r with hfirstdef
  set needed := (rows.getD r default).linesNeededForDisplay with hneededdef
  set Ls := rowWrapLengths vec first needed with hLsdef
  have hrowsne : 0 < rows.length := by omega
  have hvecne : 0 < vec.length := by omega
  have hfirstval : convertDiff3LineIdxToLine true rows r = first := by
    unfold convertDiff3LineIdxToLine
    rw [if_pos ⟨rfl, hrowsne⟩, show min r (rows.length - 1) = r by omega]
  have hLslen : Ls.length = needed := rowWrapLengths_length vec first needed
  have hmatch : ∀ j, j < Ls.length →
      (vec.getD (first + j) default).wrapLineLength = Ls.getD j 0 := by
    intro j hj
    rw [hLsdef, rowWrapLengths_getD vec first needed j (by omega)]
  have hLsne : Ls ≠ [] := by
    intro h
    rw [h] at hLslen
    simp at hLslen
    omega
  obtain ⟨s, rem, hwalk, hs, hrem, hsum⟩ :=
    d3lForwardWalk_spec vec Ls first off (vec.length + 1) hmatch hLsne hoff
      (by omega)
  have hsneed : s < needed := by omega
  refine ⟨?_, ?_⟩
  · have hfwd : convertD3LCoordsToLineCoords true rows vec r off = (first + s, rem) := by
      unfold convertD3LCoordsToLineCoords
      rw [if_pos rfl, hfirstval, hwalk]
    rw [hfwd]
    have hlinelt : first + s < vec.length := by omega
    have hback_idx : convertLineToDiff3LineIdx true vec (first + s) = r := by
      unfold convertLineToDiff3LineIdx
      rw [if_pos ⟨rfl, hvecne⟩,
        show min (first + s) (vec.length - 1) = first + s by omega]
      exact hidx s hsneed
    unfold convertLineCoordsToD3LCoords
    rw [if_pos rfl]
    simp only [hback_idx, hfirstval]
    rw [show first + s - first = s by omega,
      d3lBackWalk_spec vec s Ls first rem (by omega) hmatch]
    rw [Prod.mk.injEq]
    exact ⟨rfl, by omega⟩
  · unfold convertD3LCoordsToLineCoords convertLineCoordsToD3LCoords
    simp

/-- Witness for C3: a two-row table whose first row wraps into segments of
lengths 3 and 2; offset 4 in row 0 round-trips through (visual line 1,
position 1) back to (0, 4). -/
theorem coords_roundtrip_witness :
    (convertLineCoordsToD3LCoords true
        [⟨default, default, default, 2⟩, ⟨default, default, default, 1⟩]
        [(⟨0, 0, 3⟩ : Diff3WrapLine), ⟨0, 3, 2⟩, ⟨1, 0, 7⟩]
        (convertD3LCoordsToLineCoords true
          [⟨default, default, default, 2⟩, ⟨default, default, default, 1⟩]
          [(⟨0, 0, 3⟩ : Diff3WrapLine), ⟨0, 3, 2⟩, ⟨1, 0, 7⟩] 0 4).1
        (convertD3LCoordsToLineCoords true
          [⟨default, default, default, 2⟩, ⟨default, default, default, 1⟩]
          [(⟨0, 0, 3⟩ : Diff3WrapLine), ⟨0, 3, 2⟩, ⟨1, 0, 7⟩] 0 4).2) = (0, 4) := by
  have h := coords_roundtrip
      [⟨default, default, default, 2⟩, ⟨default, default, default, 1⟩]
      [(⟨0, 0, 3⟩ : Diff3WrapLine), ⟨0, 3, 2⟩, ⟨1, 0, 7⟩]
      0 4 (by decide) (by decide) (by decide)
      (by
        intro j hj
        have he : (([⟨default, default, default, 2⟩,
            ⟨default, default, default, 1⟩] : List Diff3Line).getD 0
              default).linesNeededForDisplay = 2 := by decide
        rw [he] at hj
        interval_cases j <;> decide)
      (by decide)
  exact h.1

/-! ## Theorem for claim C10 -/

/-- C10: `DiffTextWindowData::getString` is total over all integer inputs
and returns the empty string in every degenerate case — null line-data
pointer, empty line-data vector, negative index, index at or beyond the
row-table size, or a row with no corresponding line for this window — and
otherwise (under the alignment-table invariant that every valid per-file
line index points into the file's line vector) returns exactly that line's
text through an in-bounds read. -/
theorem getString_total (pLineData : Option (List String)) (winIdx : SrcSelector)
    (rows : List Diff3Line) (d3lIdx : Int)
    (hinv : ∀ lineData, pLineData = some lineData → ∀ d3l ∈ rows,
      (d3l.getLineIndex winIdx).isValid = true →
      0 ≤ (d3l.getLineIndex winIdx).mLineNumber ∧
        (d3l.getLineIndex winIdx).mLineNumber.toNat < lineData.length) :
    (pLineData = none → getString pLineData winIdx rows d3lIdx = "") ∧
    (∀ lineData, pLineData = some lineData → lineData = [] →
      getString pLineData winIdx rows d3lIdx = "") ∧
    (d3lIdx < 0 ∨ (rows.length : Int) ≤ d3lIdx →
      getString pLineData winIdx rows d3lIdx = "") ∧
    (∀ lineData, pLineData = some lineData →
      0 ≤ d3lIdx → d3lIdx < (rows.length : Int) →
      ((rows.getD d3lIdx.toNat default).getLineIndex winIdx).isValid = false →
      getString pLineData winIdx rows d3lIdx = "") ∧
    (∀ lineData, pLineData = some lineData → lineData ≠ [] →
      0 ≤ d3lIdx → d3lIdx < (rows.length : Int) →
      ((rows.getD d3lIdx.toNat default).getLineIndex winIdx).isValid = true →
      ∃ h : ((rows.getD d3lIdx.toNat default).getLineIndex
          winIdx).mLineNumber.toNat < lineData.length,
        getString pLineData winIdx rows d3lIdx =
          lineData.get ⟨((rows.getD d3lIdx.toNat default).getLineIndex
            winIdx).mLineNumber.toNat, h⟩) := by
  refine ⟨?_, ?_, ?_, ?_, ?_⟩
  · intro h
    rw [h, getString]
  · intro lineData h he
    rw [h, getString, if_pos (Or.inl (by simp [he]))]
  · intro h
    cases pLineData with
    | none => rw [getString]
    | some lineData =>
        rw [getString, if_pos]
        rcases h with h | h
        · exact Or.inr (Or.inl h)
        · exact Or.inr (Or.inr h)
  · intro lineData h h0 hlt hval
    rw [h, getString]
    by_cases he : lineData.isEmpty
    · rw [if_pos (Or.inl he)]
    · rw [if_neg (by push_neg; exact ⟨he, by omega, by omega⟩)]
      show (if ((rows.getD d3lIdx.toNat default).getLineIndex winIdx).isValid = false
          then ""
          else lineData.getD
            ((rows.getD d3lIdx.toNat default).getLineIndex winIdx).mLineNumber.toNat "") = ""
      rw [if_pos hval]
  · intro lineData h hne h0 hlt hval
    have hd3l : rows.getD d3lIdx.toNat default ∈ rows := by
      have hlen : d3lIdx.toNat < rows.length := by omega
      rw [List.getD_eq_getElem _ _ hlen]
      exact List.getElem_mem hlen
    obtain ⟨_, hb⟩ := hinv lineData h _ hd3l hval
    refine ⟨hb, ?_⟩
    rw [h, getString]
    rw [if_neg (by push_neg; exact ⟨by simpa using hne, by omega, by omega⟩)]
    simp only [hval, Bool.true_eq_false, if_false]
    rw [List.getD_eq_getElem _ _ hb]
    simp

/-- Witness for C10: two lines, one aligned row pointing window A at
line 1; `getString` returns "beta", and the degenerate queries return the
empty string. -/
theorem getString_total_witness :
    getString (some ["alpha", "beta"]) SrcSelector.A
      [⟨⟨1⟩, LineRef.invalidRef, LineRef.invalidRef, 1⟩] 0 = "beta" ∧
    getString (some ["alpha", "beta"]) SrcSelector.A
      [⟨⟨1⟩, LineRef.invalidRef, LineRef.invalidRef, 1⟩] (-1) = "" ∧
    getString (some ["alpha", "beta"]) SrcSelector.B
      [⟨⟨1⟩, LineRef.invalidRef, LineRef.invalidRef, 1⟩] 0 = "" ∧
    getString none SrcSelector.A
      [⟨⟨1⟩, LineRef.invalidRef, LineRef.invalidRef, 1⟩] 0 = "" := by
  have hA := getString_total (some ["alpha", "beta"]) SrcSelector.A
      [⟨⟨1⟩, LineRef.invalidRef, LineRef.invalidRef, 1⟩] 0
      (by intro ld hld; injection hld with h; subst h; decide)
  have hA' := getString_total (some ["alpha", "beta"]) SrcSelector.A
      [⟨⟨1⟩, LineRef.invalidRef, LineRef.invalidRef, 1⟩] (-1)
      (by intro ld hld; injection hld with h; subst h; decide)
  have hB := getString_total (some ["alpha", "beta"]) SrcSelector.B
      [⟨⟨1⟩, LineRef.invalidRef, LineRef.invalidRef, 1⟩] 0
      (by intro ld hld; injection hld with h; subst h; decide)
  have hN := getString_total none SrcSelector.A
      [⟨⟨1⟩, LineRef.invalidRef, LineRef.invalidRef, 1⟩] 0
      (by intro ld hld; cases hld)
  obtain ⟨hb, he⟩ := hA.2.2.2.2 ["alpha", "beta"] rfl (by decide)
      (by decide) (by decide) (by decide)
  refine ⟨?_, hA'.2.2.1 (Or.inl (by decide)),
    hB.2.2.2.1 ["alpha", "beta"] rfl (by decide) (by decide) (by decide),
    hN.1 rfl⟩
  rw [he]
  rfl

end KDiff3
